import Mathlib

/-!
Verification of the CalcuVIN-RN core: the calculator's arithmetic state
machine from `src/app/(tabs)/index.tsx` and the VIN text utilities from
`src/app/(tabs)/explore.tsx`, shallowly embedded in Lean.

Modelling conventions:
* JavaScript numbers are modelled as rationals plus a collapsed non-finite
  sentinel (`JNum.nonfin`, covering NaN and the infinities, which the source
  only ever inspects through `Number.isFinite`).  In this rational
  idealization binary64 rounding, overflow and `String(n)`'s
  scientific-notation branch are absent; every arithmetic step the claims
  exercise stays well inside the exactly-representable range.
* JavaScript strings are Lean `String`s (lists of characters); character
  classes are decided on ASCII code points, matching the ASCII-only regexes
  of the source (`/[^A-Z0-9]/`, `/[IOQ]/`, `/\s+/`).
-/

/- Batteries marks the rational operations `@[irreducible]`, which blocks
`decide` on concrete calculator runs; restore their definitional
transparency for this file. -/
attribute [local semireducible] Rat.add Rat.mul Rat.sub Rat.inv Rat.ofScientific

/-- A character is an ASCII decimal digit (`0`-`9`). -/
def isDigitChar (c : Char) : Bool := decide (48 ≤ c.toNat ∧ c.toNat ≤ 57)

/-- A character is an ASCII uppercase letter or digit (`A`-`Z`, `0`-`9`),
the class kept by the source regex `[A-Z0-9]`. -/
def isUpperAlnum (c : Char) : Bool :=
  decide ((65 ≤ c.toNat ∧ c.toNat ≤ 90) ∨ (48 ≤ c.toNat ∧ c.toNat ≤ 57))

/-- ASCII whitespace, the characters `trim` and `\s` act on in the inputs
this model covers. -/
def isWsChar (c : Char) : Bool :=
  decide (c.toNat = 32 ∨ c.toNat = 9 ∨ c.toNat = 10 ∨ c.toNat = 13 ∨
          c.toNat = 11 ∨ c.toNat = 12)

/-- ASCII uppercasing of one character, modelling `String.toUpperCase` on the
ASCII range (other characters are left unchanged and are stripped by the
alphanumeric filters that always follow in the source). -/
def toUpperChar (c : Char) : Char :=
  if 97 ≤ c.toNat ∧ c.toNat ≤ 122 then Char.ofNat (c.toNat - 32) else c

/-- Decimal digits of `n`, least significant first; `fuel` bounds the
recursion and any `fuel ≥ n` is enough. -/
def natDigitsAux : ℕ → ℕ → List Char
  | 0, _ => []
  | _ + 1, 0 => []
  | fuel + 1, n + 1 => Nat.digitChar ((n + 1) % 10) :: natDigitsAux fuel ((n + 1) / 10)

/-- Decimal digit characters of `n`, most significant first; `"0"` for zero.
Models the decimal rendering performed by JavaScript `String(n)`. -/
def natDigits (n : ℕ) : List Char :=
  if n = 0 then ['0'] else (natDigitsAux n n).reverse

/-- Decimal rendering of an integer, modelling `String(n)` on integral
values. -/
def intStr (i : ℤ) : String :=
  if i < 0 then ⟨'-' :: natDigits i.natAbs⟩ else ⟨natDigits i.toNat⟩

/-! ## Calculator engine (src/app/(tabs)/index.tsx) -/

/-- The four operator keys, source type `Op = "+" | "−" | "×" | "÷"`. -/
inductive Op where
  | add
  | sub
  | mul
  | div
deriving DecidableEq

/-- A JavaScript number as the calculator uses it: a finite rational or the
collapsed non-finite sentinel (NaN / ±Infinity, which the source only ever
distinguishes from finite values via `Number.isFinite`). -/
inductive JNum where
  | fin (q : ℚ)
  | nonfin
deriving DecidableEq

/-- Calculator state, source type `State`. -/
structure CalcState where
  display : String
  acc : Option JNum
  op : Option Op
  entering : Bool
  justEvaluated : Bool
deriving DecidableEq

/-- Calculator actions, source type `Action`; digits carry the pressed digit
key (the dispatcher only ever sends `"0"`-`"9"`). -/
inductive CalcAction where
  | digit (d : Fin 10)
  | dot
  | clear
  | toggleSign
  | percent
  | op (o : Op)
  | equals

/-- Source `initialState`. -/
def initialState : CalcState :=
  { display := "0", acc := none, op := none, entering := true, justEvaluated := false }

/-- The one-character string a digit key dispatches. -/
def digitStr (d : Fin 10) : String := ⟨[Nat.digitChar d.val]⟩

/-- Parse an unsigned decimal literal `D+('.'D*)?`, the shape of every
display string, as `Number` does on such inputs. -/
def parseUnsigned (l : List Char) : Option ℚ :=
  let intp := l.takeWhile isDigitChar
  let rest := l.dropWhile isDigitChar
  if intp.isEmpty then none
  else
    match rest with
    | [] => some ((l.takeWhile isDigitChar).foldl (fun a c => 10 * a + (c.toNat - 48)) 0 : ℕ)
    | '.' :: fr =>
        if fr.all isDigitChar then
          some (((l.takeWhile isDigitChar).foldl (fun a c => 10 * a + (c.toNat - 48)) 0 : ℕ)
            + ((fr.foldl (fun a c => 10 * a + (c.toNat - 48)) 0 : ℕ) : ℚ) / 10 ^ fr.length)
        else none
    | _ => none

/-- Parse an optionally negated decimal literal; `none` on anything else
(`Number` yields NaN there, which `toNumber` then coerces). -/
def parseNumber (l : List Char) : Option ℚ :=
  match l with
  | '-' :: r => (parseUnsigned r).map (fun q => -q)
  | _ => parseUnsigned l

/-- Source `toNumber`: `Number(display)`, with any non-finite result (for
instance from the display `"Error"`) coerced to `0`. -/
def toNumber (s : String) : ℚ := (parseNumber s.data).getD 0

/-- Remove the trailing `'0'` run of a digit list, the effect of the source
regex replace `/\.?0+$/` on the fractional digits. -/
def stripTrailingZeros (l : List Char) : List Char :=
  (l.reverse.dropWhile (fun c => c == '0')).reverse

/-- Exactly the ten fractional digits produced by `toFixed(10)`: the digits
of `fr < 10^10` left-padded with zeros to width ten. -/
def fracDigitsPadded (fr : ℕ) : List Char :=
  List.replicate (10 - (natDigits fr).length) '0' ++ natDigits fr

/-- Source `formatNumber`, fractional branch: `n.toFixed(10)` (round the
value to ten decimals, ties upward) followed by `.replace(/\.?0+$/, "")`.
The `m = 0` guard renders `"0"`; in JavaScript every value that small prints
in scientific notation and never reaches this branch. -/
def fmtRatFrac (q : ℚ) : String :=
  let aq : ℚ := if q < 0 then -q else q
  let scaled : ℚ := aq * 10 ^ 10 + 1 / 2
  let m : ℕ := (scaled.num / (scaled.den : ℤ)).toNat
  if m = 0 then "0"
  else
    let ip := m / 10 ^ 10
    let fr := m % 10 ^ 10
    let frS := stripTrailingZeros (fracDigitsPadded fr)
    let core := if frS = [] then natDigits ip else natDigits ip ++ '.' :: frS
    if q < 0 then ⟨'-' :: core⟩ else ⟨core⟩

/-- Source `formatNumber`: non-finite values display as `"Error"`; integral
values render with no decimal point (`String(n)`); other values take the
`toFixed(10)` path with trailing zeros (and a bare trailing point) stripped.
`-0` cannot arise over ℚ, which is exactly what the `Object.is(n, -0)`
normalization ensures in the source. -/
def formatNumber : JNum → String
  | .nonfin => "Error"
  | .fin q => if q.den = 1 then intStr q.num else fmtRatFrac q

/-- Source `applyOp`: the four arithmetic operations, with `÷` returning NaN
when the divisor is `0`; a non-finite operand propagates (IEEE NaN
arithmetic). -/
def applyOp (a b : JNum) (o : Op) : JNum :=
  match a, b with
  | .fin x, .fin y =>
      match o with
      | .add => .fin (x + y)
      | .sub => .fin (x - y)
      | .mul => .fin (x * y)
      | .div => if y = 0 then .nonfin else .fin (x / y)
  | _, _ => .nonfin

/-- The display contains a decimal point, source
`state.display.includes(".")`. -/
def containsDot (s : String) : Bool := s.data.any (fun c => c == '.')

/-- Source `reducer`: the calculator's whole-state transition function. -/
def reducer (state : CalcState) (action : CalcAction) : CalcState :=
  let cur : ℚ := toNumber state.display
  match action with
  | .clear => initialState
  | .digit d =>
      let startFresh := state.justEvaluated && state.op.isNone && state.acc.isNone
      if !state.entering || startFresh then
        { state with display := digitStr d, entering := true, justEvaluated := false }
      else if state.display = "0" then
        { state with display := digitStr d, justEvaluated := false }
      else
        { state with display := state.display ++ digitStr d, justEvaluated := false }
  | .dot =>
      let startFresh := state.justEvaluated && state.op.isNone && state.acc.isNone
      if !state.entering || startFresh then
        { state with display := "0.", entering := true, justEvaluated := false }
      else if containsDot state.display then state
      else { state with display := state.display ++ ".", justEvaluated := false }
  | .toggleSign =>
      if state.display = "0" then state
      else { state with display := formatNumber (.fin (-cur)), justEvaluated := false }
  | .percent =>
      { state with display := formatNumber (.fin (cur / 100)), justEvaluated := false }
  | .op o =>
      match state.op, state.acc, state.entering with
      | some pop, some a, true =>
          let nextAcc := applyOp a (.fin cur) pop
          { display := formatNumber nextAcc
            acc := some nextAcc
            op := some o
            entering := false
            justEvaluated := false }
      | _, _, _ =>
          { state with
            acc := some (state.acc.getD (.fin cur))
            op := some o
            entering := false
            justEvaluated := false }
  | .equals =>
      match state.op, state.acc with
      | some pop, some a =>
          let result := applyOp a (.fin cur) pop
          { display := formatNumber result
            acc := none
            op := none
            entering := false
            justEvaluated := true }
      | _, _ => { state with justEvaluated := true, entering := false }

/-- Run the reducer from `initialState` over a key sequence. -/
def run (acts : List CalcAction) : CalcState := acts.foldl reducer initialState

/-- All-digit fractional part, what may follow the decimal point in a
display. -/
def okFrac (l : List Char) : Bool := l.all isDigitChar

/-- Continuation of a numeric literal after its first digit: more digits,
then optionally a point and digits. -/
def okInt : List Char → Bool
  | [] => true
  | c :: r => if c = '.' then okFrac r else isDigitChar c && okInt r

/-- What may follow a leading minus sign: at least one digit, then the rest
of a numeral. -/
def validAfterDash : List Char → Bool
  | [] => false
  | c :: r => isDigitChar c && okInt r

/-- Character-list form of a syntactically valid, non-empty decimal numeral:
optional minus sign, at least one digit, optionally a decimal point and
further digits (so a trailing point is allowed). -/
def validNumCore : List Char → Bool
  | [] => false
  | c :: r => if c = '-' then validAfterDash r else isDigitChar c && okInt r

/-- A syntactically valid, non-empty decimal numeral, as a display string. -/
def validNumLit (s : String) : Bool := validNumCore s.data

/-! ## VIN text utilities (src/app/(tabs)/explore.tsx) -/

/-- Source `trim`: surrounding ASCII whitespace removed from both ends. -/
def trimList (l : List Char) : List Char :=
  ((l.dropWhile isWsChar).reverse.dropWhile isWsChar).reverse

/-- Source `normalizeVin`: trim, uppercase, and strip every character that
is not an uppercase ASCII letter or digit (`replace(/[^A-Z0-9]/g, "")`). -/
def normalizeVin (s : String) : String :=
  ⟨((trimList s.data).map toUpperChar).filter isUpperAlnum⟩

/-- The character test of the source regex `/[IOQ]/`. -/
def hasIOQ (l : List Char) : Bool :=
  l.any (fun c => c == 'I' || c == 'O' || c == 'Q')

/-- Source `validateVin`: `null` for the empty string, a length message
unless the length is exactly 17, a forbidden-letter message if `I`, `O` or
`Q` occurs, otherwise `null`. -/
def validateVin (v : String) : Option String :=
  if v.length = 0 then none
  else if ¬v.length = 17 then some "VIN must be exactly 17 characters."
  else if hasIOQ v.data then some "VIN cannot contain I, O, or Q."
  else none

/-- Uppercase the text and replace every character outside `A-Z0-9` by a
single space: source `text.toUpperCase().replace(/[^A-Z0-9]/g, " ")`. -/
def cleanedChars (text : String) : List Char :=
  text.data.map (fun c =>
    let u := toUpperChar c
    if isUpperAlnum u then u else ' ')

/-- Not a space, the character class removed by `replace(/\s+/g, "")` on the
cleaned text (whose only whitespace is the plain space). -/
def notSpace (c : Char) : Bool := !(c == ' ')

/-- Split into maximal space-free tokens, dropping empties: source
`cleaned.split(/\s+/).filter(Boolean)`.  `acc` holds the characters of the
token in progress, reversed. -/
def tokensAux : List Char → List Char → List (List Char)
  | [], acc => if acc = [] then [] else [acc.reverse]
  | c :: rest, acc =>
      if c = ' ' then
        if acc = [] then tokensAux rest []
        else acc.reverse :: tokensAux rest []
      else tokensAux rest (c :: acc)

/-- The whitespace-separated candidate tokens of the cleaned text. -/
def vinCandidates (text : String) : List (List Char) :=
  tokensAux (cleanedChars text) []

/-- The cleaned text with all whitespace removed, source
`cleaned.replace(/\s+/g, "")`. -/
def vinJoined (text : String) : List Char :=
  (cleanedChars text).filter notSpace

/-- A candidate token qualifies: exactly 17 characters, none of `I, O, Q`. -/
def goodTok (t : List Char) : Bool := t.length = 17 && !hasIOQ t

/-- Left-to-right sliding-window scan: the first 17-character window free of
`I, O, Q`, the source loop `for (i; i + 17 <= joined.length; i++)`. -/
def slideWin : List Char → Option (List Char)
  | [] => none
  | c :: r =>
      if (c :: r).length < 17 then none
      else if hasIOQ ((c :: r).take 17) then slideWin r
      else some ((c :: r).take 17)

/-- Source `extractVinFromText`: first qualifying whitespace-separated
token, else the first qualifying 17-character window of the concatenation,
else `null`. -/
def extractVinFromText (text : String) : Option String :=
  match (vinCandidates text).find? goodTok with
  | some c => some ⟨c⟩
  | none => (slideWin (vinJoined text)).map (fun w => (⟨w⟩ : String))

/-- Invariant backing claim C2: the display is a valid numeral or `"Error"`,
and an `"Error"` display only occurs with `entering` off (so digits are never
appended to it). -/
def CalcInv (s : CalcState) : Prop :=
  (validNumLit s.display = true ∨ s.display = "Error")
  ∧ (s.display = "Error" → s.entering = false)

/-! ## Helper lemmas -/

theorem foldl_inv {P : CalcState → Prop}
    (step : ∀ s a, P s → P (reducer s a)) :
    ∀ (l : List CalcAction) (s : CalcState), P s → P (l.foldl reducer s)
  | [], _, h => h
  | a :: r, s, h => foldl_inv step r (reducer s a) (step s a h)

theorem isDigitChar_digitChar : ∀ d : Fin 10, isDigitChar (Nat.digitChar d.val) = true := by
  decide

theorem toNat_of_isDigitChar {c : Char} (h : isDigitChar c = true) :
    48 ≤ c.toNat ∧ c.toNat ≤ 57 :=
  of_decide_eq_true h

theorem ne_dash_of_digit {c : Char} (h : isDigitChar c = true) : ¬c = '-' := by
  intro hc; subst hc; exact absurd h (by decide)

theorem ne_dot_of_digit {c : Char} (h : isDigitChar c = true) : ¬c = '.' := by
  intro hc; subst hc; exact absurd h (by decide)

theorem natDigitsAux_all (fuel : ℕ) :
    ∀ n, (natDigitsAux fuel n).all isDigitChar = true := by
  induction fuel with
  | zero => intro n; rfl
  | succ f ih =>
    intro n
    cases n with
    | zero => rfl
    | succ m =>
      rw [natDigitsAux, List.all_cons, Bool.and_eq_true]
      refine ⟨?_, ih _⟩
      exact isDigitChar_digitChar ⟨(m + 1) % 10, Nat.mod_lt _ (by omega)⟩

theorem natDigits_all (n : ℕ) : (natDigits n).all isDigitChar = true := by
  rw [natDigits]
  split
  · decide
  · rw [List.all_reverse]; exact natDigitsAux_all n n

theorem natDigits_ne_nil (n : ℕ) : natDigits n ≠ [] := by
  rw [natDigits]
  split
  · simp
  · next h =>
    intro hrev
    rw [List.reverse_eq_nil_iff] at hrev
    cases n with
    | zero => exact h rfl
    | succ m => rw [natDigitsAux] at hrev; exact List.noConfusion hrev

theorem okFrac_append_digit {l : List Char} {c : Char}
    (h : okFrac l = true) (hc : isDigitChar c = true) : okFrac (l ++ [c]) = true := by
  rw [okFrac] at h ⊢
  rw [List.all_append, h, Bool.true_and, List.all_cons, hc]
  rfl

theorem okInt_all_digits : ∀ {l : List Char}, l.all isDigitChar = true → okInt l = true := by
  intro l
  induction l with
  | nil => intro _; rfl
  | cons c r ih =>
    intro h
    rw [List.all_cons, Bool.and_eq_true] at h
    rw [okInt, if_neg (ne_dot_of_digit h.1), h.1, ih h.2]
    rfl

theorem okInt_append_digit : ∀ {l : List Char} {c : Char},
    okInt l = true → isDigitChar c = true → okInt (l ++ [c]) = true := by
  intro l
  induction l with
  | nil =>
    intro c _ hc
    rw [List.nil_append, okInt, if_neg (ne_dot_of_digit hc), hc]
    rfl
  | cons x r ih =>
    intro c h hc
    rw [okInt] at h
    by_cases hx : x = '.'
    · rw [if_pos hx] at h
      show okInt (x :: (r ++ [c])) = true
      rw [okInt, if_pos hx]
      exact okFrac_append_digit h hc
    · rw [if_neg hx, Bool.and_eq_true] at h
      show okInt (x :: (r ++ [c])) = true
      rw [okInt, if_neg hx, h.1, ih h.2 hc]
      rfl

theorem okInt_append_dot : ∀ {l : List Char},
    okInt l = true → '.' ∉ l → okInt (l ++ ['.']) = true := by
  intro l
  induction l with
  | nil => intro _ _; rfl
  | cons x r ih =>
    intro h hnd
    have hx : ¬x = '.' := fun he => hnd (he ▸ List.mem_cons_self x r)
    rw [okInt, if_neg hx, Bool.and_eq_true] at h
    show okInt (x :: (r ++ ['.'])) = true
    rw [okInt, if_neg hx, h.1,
        ih h.2 (fun hm => hnd (List.mem_cons_of_mem _ hm))]
    rfl

theorem okInt_digits_dot_frac : ∀ {a f : List Char},
    a.all isDigitChar = true → f.all isDigitChar = true → okInt (a ++ '.' :: f) = true := by
  intro a
  induction a with
  | nil =>
    intro f _ hf
    rw [List.nil_append, okInt, if_pos rfl]
    exact hf
  | cons x r ih =>
    intro f ha hf
    rw [List.all_cons, Bool.and_eq_true] at ha
    show okInt (x :: (r ++ '.' :: f)) = true
    rw [okInt, if_neg (ne_dot_of_digit ha.1), ha.1, ih ha.2 hf]
    rfl


theorem core_digits {l : List Char} (hne : l ≠ []) (h : l.all isDigitChar = true) :
    validNumCore l = true := by
  cases l with
  | nil => exact absurd rfl hne
  | cons c r =>
    rw [List.all_cons, Bool.and_eq_true] at h
    rw [validNumCore, if_neg (ne_dash_of_digit h.1), h.1, okInt_all_digits h.2]
    rfl

theorem core_neg_digits {l : List Char} (hne : l ≠ []) (h : l.all isDigitChar = true) :
    validNumCore ('-' :: l) = true := by
  cases l with
  | nil => exact absurd rfl hne
  | cons c r =>
    rw [List.all_cons, Bool.and_eq_true] at h
    rw [validNumCore, if_pos rfl, validAfterDash, h.1, okInt_all_digits h.2]
    rfl

theorem core_digits_dot_frac {a f : List Char} (hne : a ≠ [])
    (ha : a.all isDigitChar = true) (hf : f.all isDigitChar = true) :
    validNumCore (a ++ '.' :: f) = true := by
  cases a with
  | nil => exact absurd rfl hne
  | cons c r =>
    rw [List.all_cons, Bool.and_eq_true] at ha
    show validNumCore (c :: (r ++ '.' :: f)) = true
    rw [validNumCore, if_neg (ne_dash_of_digit ha.1), ha.1, okInt_digits_dot_frac ha.2 hf]
    rfl

theorem core_neg_digits_dot_frac {a f : List Char} (hne : a ≠ [])
    (ha : a.all isDigitChar = true) (hf : f.all isDigitChar = true) :
    validNumCore ('-' :: (a ++ '.' :: f)) = true := by
  cases a with
  | nil => exact absurd rfl hne
  | cons c r =>
    rw [List.all_cons, Bool.and_eq_true] at ha
    show validNumCore ('-' :: (c :: (r ++ '.' :: f))) = true
    rw [validNumCore, if_pos rfl, validAfterDash, ha.1, okInt_digits_dot_frac ha.2 hf]
    rfl

theorem core_append_digit {l : List Char} {c : Char}
    (h : validNumCore l = true) (hc : isDigitChar c = true) :
    validNumCore (l ++ [c]) = true := by
  cases l with
  | nil => exact absurd h (by decide)
  | cons x r =>
    rw [validNumCore] at h
    by_cases hx : x = '-'
    · rw [if_pos hx] at h
      subst hx
      cases r with
      | nil => exact absurd h (by decide)
      | cons c2 r2 =>
        rw [validAfterDash, Bool.and_eq_true] at h
        show validNumCore ('-' :: (c2 :: (r2 ++ [c]))) = true
        rw [validNumCore, if_pos rfl, validAfterDash, h.1, okInt_append_digit h.2 hc]
        rfl
    · rw [if_neg hx, Bool.and_eq_true] at h
      show validNumCore (x :: (r ++ [c])) = true
      rw [validNumCore, if_neg hx, h.1, okInt_append_digit h.2 hc]
      rfl

theorem core_append_dot {l : List Char}
    (h : validNumCore l = true) (hnd : '.' ∉ l) :
    validNumCore (l ++ ['.']) = true := by
  cases l with
  | nil => exact absurd h (by decide)
  | cons x r =>
    have hrm : '.' ∉ r := fun hm => hnd (List.mem_cons_of_mem _ hm)
    rw [validNumCore] at h
    by_cases hx : x = '-'
    · rw [if_pos hx] at h
      subst hx
      cases r with
      | nil => exact absurd h (by decide)
      | cons c2 r2 =>
        rw [validAfterDash, Bool.and_eq_true] at h
        show validNumCore ('-' :: (c2 :: (r2 ++ ['.']))) = true
        rw [validNumCore, if_pos rfl, validAfterDash, h.1,
            okInt_append_dot h.2 (fun hm => hrm (List.mem_cons_of_mem _ hm))]
        rfl
    · rw [if_neg hx, Bool.and_eq_true] at h
      show validNumCore (x :: (r ++ ['.'])) = true
      rw [validNumCore, if_neg hx, h.1, okInt_append_dot h.2 hrm]
      rfl

theorem valid_append_digit {s : String} (d : Fin 10) (h : validNumLit s = true) :
    validNumLit (s ++ digitStr d) = true := by
  obtain ⟨l⟩ := s
  show validNumCore (l ++ [Nat.digitChar d.val]) = true
  exact core_append_digit h (isDigitChar_digitChar d)

theorem valid_append_dot {s : String} (h : validNumLit s = true)
    (hnd : containsDot s = false) : validNumLit (s ++ ".") = true := by
  obtain ⟨l⟩ := s
  have hmem : '.' ∉ l := by
    intro hm
    rw [containsDot] at hnd
    have hany : l.any (fun c => c == '.') = true :=
      List.any_eq_true.mpr ⟨'.', hm, by decide⟩
    rw [hany] at hnd
    exact Bool.noConfusion hnd
  show validNumCore (l ++ ['.']) = true
  exact core_append_dot h hmem

theorem valid_ne_error {s : String} (h : validNumLit s = true) : ¬s = "Error" := by
  intro he; rw [he] at h; exact absurd h (by decide)

theorem valid_ne_empty {s : String} (h : validNumLit s = true) : ¬s = "" := by
  intro he; rw [he] at h; exact absurd h (by decide)

theorem stripTrailingZeros_all {l : List Char}
    (h : l.all isDigitChar = true) : (stripTrailingZeros l).all isDigitChar = true := by
  rw [List.all_eq_true] at h ⊢
  intro x hx
  rw [stripTrailingZeros, List.mem_reverse] at hx
  exact h x (List.mem_reverse.mp ((List.dropWhile_sublist _).mem hx))

theorem fracDigitsPadded_all (fr : ℕ) : (fracDigitsPadded fr).all isDigitChar = true := by
  rw [fracDigitsPadded, List.all_append, Bool.and_eq_true]
  constructor
  · rw [List.all_eq_true]
    intro x hx
    rw [List.mem_replicate] at hx
    rw [hx.2]
    decide
  · exact natDigits_all fr

theorem intStr_valid (i : ℤ) : validNumLit (intStr i) = true := by
  rw [intStr]
  split
  · exact core_neg_digits (natDigits_ne_nil _) (natDigits_all _)
  · exact core_digits (natDigits_ne_nil _) (natDigits_all _)

theorem fmtRatFrac_valid (q : ℚ) : validNumLit (fmtRatFrac q) = true := by
  simp only [fmtRatFrac]
  by_cases hq : q < 0
  · simp only [if_pos hq]
    split
    · decide
    · split
      · exact core_neg_digits (natDigits_ne_nil _) (natDigits_all _)
      · exact core_neg_digits_dot_frac (natDigits_ne_nil _) (natDigits_all _)
          (stripTrailingZeros_all (fracDigitsPadded_all _))
  · simp only [if_neg hq]
    split
    · decide
    · split
      · exact core_digits (natDigits_ne_nil _) (natDigits_all _)
      · exact core_digits_dot_frac (natDigits_ne_nil _) (natDigits_all _)
          (stripTrailingZeros_all (fracDigitsPadded_all _))

theorem formatNumber_fin_valid (q : ℚ) : validNumLit (formatNumber (.fin q)) = true := by
  rw [formatNumber]
  split
  · exact intStr_valid _
  · exact fmtRatFrac_valid _

theorem formatNumber_valid_or_error (j : JNum) :
    validNumLit (formatNumber j) = true ∨ formatNumber j = "Error" := by
  cases j with
  | fin q => exact Or.inl (formatNumber_fin_valid q)
  | nonfin => exact Or.inr rfl

theorem formatNumber_fin_ne_error (q : ℚ) : ¬formatNumber (.fin q) = "Error" :=
  valid_ne_error (formatNumber_fin_valid q)

theorem valid_digitStr : ∀ d : Fin 10, validNumLit (digitStr d) = true := by
  decide

theorem digitStr_ne_error : ∀ d : Fin 10, ¬digitStr d = "Error" := by
  decide

theorem calcInv_init : CalcInv initialState :=
  ⟨Or.inl (by decide), fun hE => absurd hE (by decide)⟩

theorem calcInv_step (s : CalcState) (a : CalcAction) (h : CalcInv s) :
    CalcInv (reducer s a) := by
  obtain ⟨hval, herr⟩ := h
  cases a with
  | clear => exact calcInv_init
  | digit d =>
    simp only [reducer]
    split
    · exact ⟨Or.inl (valid_digitStr d), fun hE => absurd hE (digitStr_ne_error d)⟩
    · next hcond =>
      split
      · exact ⟨Or.inl (valid_digitStr d), fun hE => absurd hE (digitStr_ne_error d)⟩
      · have hent : s.entering = true := by
          revert hcond; cases s.entering <;> simp
        have hvd : validNumLit s.display = true := by
          rcases hval with hv | hE
          · exact hv
          · rw [herr hE] at hent; exact Bool.noConfusion hent
        have hnew := valid_append_digit d hvd
        exact ⟨Or.inl hnew, fun hE => absurd hE (valid_ne_error hnew)⟩
  | dot =>
    simp only [reducer]
    split
    · refine ⟨Or.inl ?_, fun hE => absurd hE ?_⟩
      · show validNumLit "0." = true
        decide
      · show ¬"0." = "Error"
        decide
    · next hcond =>
      split
      · exact ⟨hval, herr⟩
      · next hdot =>
        have hent : s.entering = true := by
          revert hcond; cases s.entering <;> simp
        have hvd : validNumLit s.display = true := by
          rcases hval with hv | hE
          · exact hv
          · rw [herr hE] at hent; exact Bool.noConfusion hent
        have hdf : containsDot s.display = false := by
          revert hdot; cases containsDot s.display <;> simp
        have hnew := valid_append_dot hvd hdf
        exact ⟨Or.inl hnew, fun hE => absurd hE (valid_ne_error hnew)⟩
  | toggleSign =>
    simp only [reducer]
    split
    · exact ⟨hval, herr⟩
    · exact ⟨Or.inl (formatNumber_fin_valid _),
        fun hE => absurd hE (formatNumber_fin_ne_error _)⟩
  | percent =>
    simp only [reducer]
    exact ⟨Or.inl (formatNumber_fin_valid _),
      fun hE => absurd hE (formatNumber_fin_ne_error _)⟩
  | op o =>
    simp only [reducer]
    split
    · exact ⟨formatNumber_valid_or_error _, fun _ => rfl⟩
    · exact ⟨hval, fun _ => rfl⟩
  | equals =>
    simp only [reducer]
    split
    · exact ⟨formatNumber_valid_or_error _, fun _ => rfl⟩
    · exact ⟨hval, fun _ => rfl⟩

theorem pair_step (s : CalcState) (a : CalcAction)
    (h : s.op.isSome = s.acc.isSome) :
    (reducer s a).op.isSome = (reducer s a).acc.isSome := by
  cases a with
  | clear => rfl
  | digit d =>
    simp only [reducer]
    split
    · exact h
    · split
      · exact h
      · exact h
  | dot =>
    simp only [reducer]
    split
    · exact h
    · split
      · exact h
      · exact h
  | toggleSign =>
    simp only [reducer]
    split
    · exact h
    · exact h
  | percent =>
    simp only [reducer]
    exact h
  | op o =>
    simp only [reducer]
    split
    · rfl
    · rfl
  | equals =>
    simp only [reducer]
    split
    · rfl
    · exact h

theorem find?_first {α : Type} (p : α → Bool) :
    ∀ (l1 : List α) (t : α) (l2 : List α),
      (∀ x ∈ l1, p x = false) → p t = true →
      (l1 ++ t :: l2).find? p = some t
  | [], t, l2, _, ht => by
      rw [List.nil_append, List.find?_cons, ht]
  | x :: r, t, l2, hpre, ht => by
      have hx : p x = false := hpre x (List.mem_cons_self x r)
      show List.find? p (x :: (r ++ t :: l2)) = some t
      rw [List.find?_cons, hx]
      exact find?_first p r t l2 (fun y hy => hpre y (List.mem_cons_of_mem _ hy)) ht

theorem slideWin_found : ∀ (l : List Char) (i : ℕ),
    i + 17 ≤ l.length → hasIOQ ((l.drop i).take 17) = false →
    (∀ j, j < i → hasIOQ ((l.drop j).take 17) = true) →
    slideWin l = some ((l.drop i).take 17)
  | [], i, hlen, _, _ => by
      exact absurd hlen (by simp)
  | c :: r, i, hlen, hgood, hfirst => by
      have hcl : (c :: r).length = r.length + 1 := rfl
      cases i with
      | zero =>
        rw [List.drop_zero] at hgood
        rw [slideWin, if_neg (by omega)]
        rw [if_neg (by rw [hgood]; exact Bool.noConfusion)]
        rw [List.drop_zero]
      | succ i' =>
        have h0 : hasIOQ ((c :: r).take 17) = true := by
          have h00 := hfirst 0 (Nat.succ_pos i')
          rwa [List.drop_zero] at h00
        rw [slideWin, if_neg (by omega), if_pos h0]
        exact slideWin_found r i' (by omega) hgood
          (fun j hj => hfirst (j + 1) (by omega))

theorem slideWin_none : ∀ l : List Char,
    (∀ i, i + 17 ≤ l.length → hasIOQ ((l.drop i).take 17) = true) →
    slideWin l = none
  | [], _ => rfl
  | c :: r, h => by
      have hcl : (c :: r).length = r.length + 1 := rfl
      rw [slideWin]
      by_cases hl : (c :: r).length < 17
      · rw [if_pos hl]
      · rw [if_neg hl]
        have h0 : hasIOQ ((c :: r).take 17) = true := by
          have h00 := h 0 (by omega)
          rwa [List.drop_zero] at h00
        rw [if_pos h0]
        exact slideWin_none r (fun i hi => h (i + 1) (by omega))

theorem tokensAux_flatten : ∀ (l acc : List Char),
    (tokensAux l acc).flatten = acc.reverse ++ l.filter notSpace
  | [], acc => by
      rw [tokensAux]
      split
      · next hacc => subst hacc; simp
      · simp
  | c :: rest, acc => by
      rw [tokensAux]
      by_cases hc : c = ' '
      · rw [if_pos hc]
        have hns : notSpace c = false := by subst hc; rfl
        split
        · next hacc =>
          subst hacc
          rw [tokensAux_flatten rest []]
          simp [List.filter_cons, hns]
        · show acc.reverse ++ (tokensAux rest []).flatten = _
          rw [tokensAux_flatten rest []]
          simp [List.filter_cons, hns]
      · rw [if_neg hc]
        rw [tokensAux_flatten rest (c :: acc)]
        have hns : notSpace c = true := by simp [notSpace, hc]
        simp [List.filter_cons, hns, List.append_assoc]

theorem dropWhile_all_false {p : Char → Bool} :
    ∀ {l : List Char}, (∀ c ∈ l, p c = false) → l.dropWhile p = l := by
  intro l
  induction l with
  | nil => intro _; rfl
  | cons c r _ =>
    intro h
    simp [List.dropWhile_cons, h c (List.mem_cons_self c r)]

theorem map_id_of_fixed {f : Char → Char} :
    ∀ {l : List Char}, (∀ c ∈ l, f c = c) → l.map f = l := by
  intro l
  induction l with
  | nil => intro _; rfl
  | cons c r ih =>
    intro h
    rw [List.map_cons, h c (List.mem_cons_self c r),
        ih (fun y hy => h y (List.mem_cons_of_mem _ hy))]

theorem toUpper_fixed {c : Char} (h : isUpperAlnum c = true) : toUpperChar c = c := by
  have hp := of_decide_eq_true h
  rw [toUpperChar, if_neg (by omega)]

theorem alnum_not_ws {c : Char} (h : isUpperAlnum c = true) : isWsChar c = false := by
  have hp := of_decide_eq_true h
  exact decide_eq_false (by omega)

theorem normalize_mem_alnum {x : String} {c : Char}
    (hc : c ∈ (normalizeVin x).data) : isUpperAlnum c = true :=
  (List.mem_filter.mp hc).2

theorem toNumber_digitStr : ∀ d : Fin 10, toNumber (digitStr d) = (d.val : ℚ) := by
  decide

/-! ## Claim theorems -/

/-- Claim C2: in every state reachable from the initial state by any sequence
of actions, the display field is a syntactically valid, non-empty numeric
literal (optionally ending in a trailing decimal point) or the literal string
"Error". -/
theorem calc_display_wellformed (acts : List CalcAction) :
    (validNumLit (run acts).display = true ∨ (run acts).display = "Error")
    ∧ ¬(run acts).display = "" := by
  have h : CalcInv (run acts) := foldl_inv calcInv_step acts initialState calcInv_init
  refine ⟨h.1, ?_⟩
  rcases h.1 with hv | hE
  · exact valid_ne_empty hv
  · rw [hE]; decide

/-- Claim C5: in every state reachable from the initial state, the pending
operator is present if and only if the accumulator is present — no reachable
state has exactly one of the pair set. -/
theorem calc_acc_op_paired (acts : List CalcAction) :
    (run acts).op.isSome = (run acts).acc.isSome :=
  @foldl_inv (fun s => s.op.isSome = s.acc.isSome) pair_step acts initialState rfl

/-- Claim C3: the key sequence 3, +, 4, ×, 2, = yields display "14", and in
general an operator press with an operator pending, an accumulator present
and an operand being entered immediately evaluates the previous operator
against accumulator and display, stores the result as both the new
accumulator and the display, and installs the new operator as pending
(left-to-right immediate evaluation). -/
theorem calc_chained_ops :
    (run [.digit 3, .op .add, .digit 4, .op .mul, .digit 2, .equals]).display = "14"
    ∧ ∀ (s : CalcState) (p : Op) (a : JNum) (o : Op),
        s.op = some p → s.acc = some a → s.entering = true →
        reducer s (.op o) =
          { display := formatNumber (applyOp a (.fin (toNumber s.display)) p)
            acc := some (applyOp a (.fin (toNumber s.display)) p)
            op := some o
            entering := false
            justEvaluated := false } := by
  constructor
  · decide
  · intro s p a o hop hacc hent
    simp only [reducer]
    rw [hop, hacc, hent]

/-- Witness for C3: from state display "4", accumulator 3, pending +, while
entering, pressing × evaluates 3 + 4 = 7 and installs × as pending. -/
theorem calc_chained_ops_witness :
    reducer ⟨"4", some (.fin 3), some .add, true, false⟩ (.op .mul)
      = ⟨"7", some (.fin 7), some .mul, false, false⟩ := by
  have h := calc_chained_ops.2 ⟨"4", some (.fin 3), some .add, true, false⟩
    .add (.fin 3) .mul rfl rfl rfl
  rw [h]
  decide

/-- Claim C4: division yields the non-finite sentinel exactly when the second
operand is 0 and the quotient otherwise, non-finite values format to the
string "Error", and the key sequence 5, ÷, 0, = yields display "Error"; all
of this is an ordinary return value of the total functions modelled here. -/
theorem calc_div_zero_error :
    (∀ a b : ℚ, applyOp (.fin a) (.fin b) .div = if b = 0 then JNum.nonfin else .fin (a / b))
    ∧ formatNumber .nonfin = "Error"
    ∧ (run [.digit 5, .op .div, .digit 0, .equals]).display = "Error" :=
  ⟨fun _ _ => rfl, rfl, by decide⟩

/-- Claim C6: for every state, Percent sets the display to the formatted
value of display divided by 100, clears justEvaluated, and leaves
accumulator, pending operator and entering exactly as they were. -/
theorem calc_percent_frame (s : CalcState) :
    (reducer s .percent).display = formatNumber (.fin (toNumber s.display / 100))
    ∧ (reducer s .percent).acc = s.acc
    ∧ (reducer s .percent).op = s.op
    ∧ (reducer s .percent).entering = s.entering
    ∧ (reducer s .percent).justEvaluated = false :=
  ⟨rfl, rfl, rfl, rfl, rfl⟩

/-- Claim C10: pressing Equals twice in succession yields the same display as
pressing it once, for every state (an evaluating Equals clears accumulator
and operator, so the second Equals leaves the display unchanged); for example
3, +, 4, =, = shows "7". -/
theorem calc_equals_idem :
    (∀ s : CalcState,
        (reducer (reducer s .equals) .equals).display = (reducer s .equals).display)
    ∧ (run [.digit 3, .op .add, .digit 4, .equals, .equals]).display = "7" := by
  constructor
  · intro s
    obtain ⟨disp, sacc, sop, ent, je⟩ := s
    cases sop with
    | none => rfl
    | some p =>
      cases sacc with
      | none => rfl
      | some a => rfl
  · decide

/-- Claim C1 (amended): after 5, ÷, 0, = puts "Error" on the display, Clear
resets to the initial state; but a chained operation does not propagate a
non-finite value: toNumber reads the "Error" display back as 0, so for every
operator and digit the sequence 5, ÷, 0, =, op, d, = yields the formatted
value of applyOp 0 d op (finite except for ÷ 0). -/
theorem calc_error_chain_amended :
    run [.digit 5, .op .div, .digit 0, .equals, .clear] = initialState
    ∧ ∀ (o : Op) (d : Fin 10),
        (run [.digit 5, .op .div, .digit 0, .equals, .op o, .digit d, .equals]).display
          = formatNumber (applyOp (.fin 0) (.fin (d.val : ℚ)) o) := by
  constructor
  · decide
  · intro o d
    have h4 : run [.digit 5, .op .div, .digit 0, .equals]
        = ⟨"Error", none, none, false, true⟩ := by decide
    show (reducer (reducer (reducer (run [.digit 5, .op .div, .digit 0, .equals])
        (.op o)) (.digit d)) .equals).display = _
    rw [h4]
    have e1 : reducer (⟨"Error", none, none, false, true⟩ : CalcState) (.op o)
        = ⟨"Error", some (.fin 0), some o, false, false⟩ := rfl
    rw [e1]
    have e2 : reducer (⟨"Error", some (.fin 0), some o, false, false⟩ : CalcState) (.digit d)
        = ⟨digitStr d, some (.fin 0), some o, true, false⟩ := rfl
    rw [e2]
    have e3 : reducer (⟨digitStr d, some (.fin 0), some o, true, false⟩ : CalcState) .equals
        = ⟨formatNumber (applyOp (.fin 0) (.fin (toNumber (digitStr d))) o),
            none, none, false, true⟩ := rfl
    rw [e3, toNumber_digitStr d]

/-- Counterexample to C1 as stated: chaining +, 3, = after the "Error"
display of 5, ÷, 0, = yields the finite display "3", not a non-finite or
"Error" result — the "Error" display is treated as the operand 0. -/
theorem calc_error_chain_cex :
    (run [.digit 5, .op .div, .digit 0, .equals, .op .add, .digit 3, .equals]).display = "3"
    ∧ ¬(run [.digit 5, .op .div, .digit 0, .equals, .op .add, .digit 3,
        .equals]).display = "Error" :=
  ⟨by decide, by decide⟩

/-- Claim C7: extractVin uppercases the text, splits it into alphanumeric
tokens and returns the first token of length 17 without I, O, Q; if no token
qualifies it scans the 17-character windows of the concatenation of all
tokens left to right and returns the first window without I, O, Q; if none
exists it returns none — an explicit absent value from a total function. -/
theorem vin_extract_firstmatch (text : String) :
    (∀ (l1 : List (List Char)) (t : List Char) (l2 : List (List Char)),
        vinCandidates text = l1 ++ t :: l2 →
        (∀ u ∈ l1, goodTok u = false) → goodTok t = true →
        extractVinFromText text = some ⟨t⟩)
    ∧ ((∀ u ∈ vinCandidates text, goodTok u = false) →
        ∀ i, i + 17 ≤ (vinJoined text).length →
        hasIOQ (((vinJoined text).drop i).take 17) = false →
        (∀ j, j < i → hasIOQ (((vinJoined text).drop j).take 17) = true) →
        extractVinFromText text = some ⟨((vinJoined text).drop i).take 17⟩)
    ∧ ((∀ u ∈ vinCandidates text, goodTok u = false) →
        (∀ i, i + 17 ≤ (vinJoined text).length →
          hasIOQ (((vinJoined text).drop i).take 17) = true) →
        extractVinFromText text = none)
    ∧ (vinCandidates text).flatten = vinJoined text := by
  refine ⟨?_, ?_, ?_, ?_⟩
  · intro l1 t l2 hc hpre ht
    have hf : (vinCandidates text).find? goodTok = some t := by
      rw [hc]; exact find?_first goodTok l1 t l2 hpre ht
    rw [extractVinFromText, hf]
  · intro hnone i hlen hgood hfirst
    have hf : (vinCandidates text).find? goodTok = none :=
      List.find?_eq_none.mpr (fun u hu hgt => by
        rw [hnone u hu] at hgt; exact Bool.noConfusion hgt)
    rw [extractVinFromText, hf, slideWin_found (vinJoined text) i hlen hgood hfirst]
    rfl
  · intro hnone hall
    have hf : (vinCandidates text).find? goodTok = none :=
      List.find?_eq_none.mpr (fun u hu hgt => by
        rw [hnone u hu] at hgt; exact Bool.noConfusion hgt)
    rw [extractVinFromText, hf, slideWin_none (vinJoined text) hall]
    rfl
  · have h := tokensAux_flatten (cleanedChars text) []
    rw [List.reverse_nil, List.nil_append] at h
    exact h

/-- Witness for C7: in noise words, the token 1HGCM82633A004352 is found and
returned exactly. -/
theorem vin_extract_firstmatch_witness :
    extractVinFromText "HELLO 1HGCM82633A004352 WORLD" = some "1HGCM82633A004352" := by
  have h := (vin_extract_firstmatch "HELLO 1HGCM82633A004352 WORLD").1
    [['H', 'E', 'L', 'L', 'O']] ("1HGCM82633A004352".data)
    [['W', 'O', 'R', 'L', 'D']] (by decide) (by decide) (by decide)
  exact h

/-- Claim C8: validate returns no error on the empty string, a length error
exactly when the length is not 17, then a forbidden-character error exactly
when I, O or Q occurs, and otherwise no error — always as an ordinary return
value of a total function. -/
theorem vin_validate_cases (v : String) :
    (v.length = 0 → validateVin v = none)
    ∧ (¬v.length = 0 → ¬v.length = 17 →
        validateVin v = some "VIN must be exactly 17 characters.")
    ∧ (v.length = 17 → hasIOQ v.data = true →
        validateVin v = some "VIN cannot contain I, O, or Q.")
    ∧ (v.length = 17 → hasIOQ v.data = false → validateVin v = none) := by
  refine ⟨?_, ?_, ?_, ?_⟩
  · intro h0
    rw [validateVin, if_pos h0]
  · intro h0 h17
    rw [validateVin, if_neg h0, if_pos h17]
  · intro h17 hioq
    have h0 : ¬v.length = 0 := by omega
    rw [validateVin, if_neg h0, if_neg (not_not_intro h17), if_pos hioq]
  · intro h17 hioq
    have h0 : ¬v.length = 0 := by omega
    rw [validateVin, if_neg h0, if_neg (not_not_intro h17),
        if_neg (by rw [hioq]; exact Bool.noConfusion)]

/-- Witness for C8: the well-formed VIN 1HGCM82633A004352 validates with no
error. -/
theorem vin_validate_cases_witness : validateVin "1HGCM82633A004352" = none :=
  (vin_validate_cases "1HGCM82633A004352").2.2.2 (by decide) (by decide)

/-- Claim C9: normalize (trim, uppercase, strip non-alphanumerics) is
idempotent on every input, and normalizes " 1hgcm82633a004352 " to
"1HGCM82633A004352". -/
theorem vin_normalize_idempotent :
    (∀ x : String, normalizeVin (normalizeVin x) = normalizeVin x)
    ∧ normalizeVin " 1hgcm82633a004352 " = "1HGCM82633A004352" := by
  constructor
  · intro x
    have hmem : ∀ c ∈ (normalizeVin x).data, isUpperAlnum c = true :=
      fun c hc => normalize_mem_alnum hc
    show (⟨((trimList (normalizeVin x).data).map toUpperChar).filter isUpperAlnum⟩ : String)
      = normalizeVin x
    have h1 : trimList (normalizeVin x).data = (normalizeVin x).data := by
      rw [trimList,
        dropWhile_all_false (fun c hc => alnum_not_ws (hmem c hc)),
        dropWhile_all_false (fun c hc => alnum_not_ws (hmem c (List.mem_reverse.mp hc))),
        List.reverse_reverse]
    rw [h1,
      map_id_of_fixed (fun c hc => toUpper_fixed (hmem c hc)),
      List.filter_eq_self.mpr hmem]
  · decide
